import Mathlib

/-!
Verification of the qcow2 image-fuzzer core (`qcow2/layout.py`, `qcow2/fuzz.py`)
against its natural-language specification.

The Python modules are shallowly embedded below.  Randomness (`random.randint`,
`random.sample`, `random.shuffle`, `random.getrandbits`, ...) is modelled by an
explicit stream of natural numbers `RS : ℕ → ℕ`: each draw reads positions of
the stream, and theorems quantify over all streams.  Unbounded Python recursion
("redraw until different", duplicate-avoidance loops) is modelled with an
explicit fuel argument and an `Option` result: `none` corresponds to a
non-terminating run, `some` to a terminating one.  Python exceptions
(`ValueError` from `max(set())` or `random.sample` with too large a count,
`AttributeError` from `getattr`) are modelled by `none` / `Except.error`
results.  Integer arithmetic follows Python 2 semantics (`/` is floor
division, values unbounded), using `Int` where intermediate values can be
negative.
-/

namespace QcowFuzz

/-- A stream of external random data; each position is one draw. -/
def RS : Type := Nat → Nat

/-- Drop the first `k` draws of the stream. -/
def RS.drop (s : RS) (k : Nat) : RS := fun n => s (n + k)

/-- Independent substream number `i` of the stream. -/
def RS.sub (s : RS) (i : Nat) : RS := fun n => s (Nat.pair i n)

/-- Model of Python `random.randint(lo, hi)` (inclusive bounds) driven by one
draw `r`.  Only meaningful for `lo ≤ hi`, matching every call site. -/
def randint (lo hi : Nat) (r : Nat) : Nat := lo + r % (hi + 1 - lo)

/-- Model of Python `random.sample(population, k)`: `k` distinct elements,
chosen by repeatedly picking a random position and removing it.  Returns
`none` when `k` exceeds the population size (Python raises `ValueError`). -/
def sampleList {α : Type} : Nat → List α → RS → Option (List α)
  | 0, _, _ => some []
  | _ + 1, [], _ => none
  | k + 1, a :: t, s =>
    let i := s 0 % (a :: t).length
    (sampleList k ((a :: t).eraseIdx i) (RS.drop s 1)).map
      (fun rest => (a :: t).get ⟨i, Nat.mod_lt _ (Nat.succ_pos t.length)⟩ :: rest)

/-- Model of Python `random.shuffle`: repeatedly extract a random element.
`fuel` is the number of extraction steps (the list length at the call site). -/
def shuffleList {α : Type} : Nat → List α → RS → List α
  | 0, l, _ => l
  | _ + 1, [], _ => []
  | k + 1, a :: t, s =>
    let i := s 0 % (a :: t).length
    (a :: t).get ⟨i, Nat.mod_lt _ (Nat.succ_pos t.length)⟩ ::
      shuffleList k ((a :: t).eraseIdx i) (RS.drop s 1)

/-! ## Data model (`layout.py`: `Field`, `FieldsList`)

Field names are atoms; the set of names occurring anywhere in the generator is
closed, so they are embedded as an inductive type. -/

/-- Byte-layout format of a field: `beInt n` is a big-endian `n`-byte integer
(`'B'`, `'>I'`, `'>Q'`); `beStr n` is an `n`-byte string (`'>Ns'`). -/
inductive Fmt : Type
  | beInt : Nat → Fmt
  | beStr : Nat → Fmt
deriving DecidableEq

/-- A field value: an integer or a byte string. -/
inductive Val : Type
  | i : Nat → Val
  | s : List Nat → Val
deriving DecidableEq

/-- The closed set of field names used by `layout.py`. -/
inductive FName : Type
  | magic | version | backing_file_offset | backing_file_size | cluster_bits
  | size | crypt_method | l1_size | l1_table_offset | refcount_table_offset
  | refcount_table_clusters | nb_snapshots | snapshots_offset
  | incompatible_features | compatible_features | autoclear_features
  | refcount_order | header_length
  | ext_magic | ext_length | bf_format | bf_name
  | feature_type | feature_bit_number | feature_name
  | l1_entry | l2_entry
deriving DecidableEq

/-- `layout.Field`: quadruple of format, offset, value and name. -/
structure Field : Type where
  fmt : Fmt
  offset : Nat
  value : Val
  name : FName
deriving DecidableEq

/-- `FieldsList.__getitem__` followed by `[0].value`: the value of the first
field with the given name (call sites always find one). -/
def getFieldValue (fields : List Field) (name : FName) : Val :=
  (((fields.filter (fun f => f.name = name)).head?).map Field.value).getD (Val.i 0)

/-- In-place assignment `fields[name][0].value = v`: update the value of the
first field with the given name. -/
def setFieldValue : List Field → FName → Val → List Field
  | [], _, _ => []
  | f :: rest, name, v =>
    if f.name = name then { f with value := v } :: rest
    else f :: setFieldValue rest name v

/-! ## `fuzz.py`: constraint-based field fuzzing -/

def UINT32 : Nat := 2 ^ 32 - 1
def UINT64 : Nat := 2 ^ 64 - 1
/-- Most significant bit order of a 64-bit value (`UINT64_M`). -/
def UINT64_M : Nat := 63

/-- `reduce(lambda x, y: x + y[1] - y[0] + 1, intervals, 0)`: total number of
integers covered by the (closed, ascending, disjoint) intervals. -/
def intervalsTotal (intervals : List (Nat × Nat)) : Nat :=
  intervals.foldl (fun x y => x + y.2 - y.1 + 1) 0

/-- The remapping loop of `random_from_intervals`: for each adjacent pair of
intervals, shift the draw past the gap between them. -/
def rfiAdjust : Nat → List ((Nat × Nat) × Nat × Nat) → Nat
  | r, [] => r
  | r, x :: rest =>
    rfiAdjust (r + (if x.1.2 < r then x.2.1 - x.1.2 - 1 else 0)) rest

/-- `fuzz.random_from_intervals(intervals)`, driven by one draw `r`.
Call sites always pass a non-empty list (Python indexes `intervals[0]`). -/
def random_from_intervals (intervals : List (Nat × Nat)) (r : Nat) : Nat :=
  let total := intervalsTotal intervals
  let r0 := randint 0 (total - 1) r + (intervals.headD (0, 0)).1
  rfiAdjust r0 (intervals.zip intervals.tail)

/-- `fuzz.random_bits(bit_ranges)`: for each bit range, sample a random-sized
random subset of positions and OR `1 << position` together. -/
def random_bits : List (Nat × Nat) → RS → Option Nat
  | [], _ => some 0
  | rng :: rest, s =>
    let k := randint 0 (rng.2 - rng.1 + 1) (s 0)
    match sampleList k (List.range' rng.1 (rng.2 + 1 - rng.1)) (RS.sub s 1) with
    | none => none
    | some bits =>
      match random_bits rest (RS.sub s 2) with
      | none => none
      | some v => some (bits.foldl (fun acc b => acc ||| (1 <<< b)) v)

/-- `fuzz.validator(current, intervals)`: redraw (up to `fuel` times,
modelling the unbounded Python recursion) until the value differs from
`current`. -/
def validator : Nat → Nat → List (Nat × Nat) → RS → Option Nat
  | 0, _, _, _ => none
  | fuel + 1, current, intervals, s =>
    let val := random_from_intervals intervals (s 0)
    if val = current then validator fuel current intervals (RS.drop s 1)
    else some val

/-- `fuzz.bit_validator(current, bit_ranges)`: redraw a random bit mask until
it differs from `current`. -/
def bit_validator : Nat → Nat → List (Nat × Nat) → RS → Option Nat
  | 0, _, _, _ => none
  | fuel + 1, current, bit_ranges, s =>
    match random_bits bit_ranges (RS.sub s 0) with
    | none => none
    | some val =>
      if val = current then bit_validator fuel current bit_ranges (RS.sub s 1)
      else some val

/-- One element of a `constraints` list in `fuzz.py`: either a literal value
or a list of closed intervals. -/
inductive Constraint : Type
  | lit : Nat → Constraint
  | ivs : List (Nat × Nat) → Constraint
deriving DecidableEq

/-- The list comprehension `[iter_validate(c) for c in constraints]` of
`fuzz.selector`: literals pass through, interval lists go through the
(bit-)validator.  Constraint number `i` reads substream `i` of `s`. -/
def collectValues (fuel current : Nat) (is_bitmask : Bool) (s : RS) :
    Nat → List Constraint → Option (List Nat)
  | _, [] => some []
  | i, c :: rest =>
    let ov : Option Nat :=
      match c with
      | .lit w => some w
      | .ivs l =>
        if is_bitmask then bit_validator fuel current l (RS.sub s i)
        else validator fuel current l (RS.sub s i)
    match ov with
    | none => none
    | some v =>
      match collectValues fuel current is_bitmask s (i + 1) rest with
      | none => none
      | some vs => some (v :: vs)

/-- `fuzz.selector(current, constraints, is_bitmask)`: collect one candidate
per constraint, remove the first occurrence of `current` (`list.remove`
wrapped in `try/except`), then `random.choice` on the remainder (`none` models
the `IndexError` on an empty remainder, which never occurs at call sites). -/
def selector (fuel current : Nat) (constraints : List Constraint)
    (is_bitmask : Bool) (s : RS) : Option Nat :=
  match collectValues fuel current is_bitmask s 1 constraints with
  | none => none
  | some fuzz_values =>
    let remaining := fuzz_values.erase current
    remaining.get? (randint 0 (remaining.length - 1) (s 0))

/-- `fuzz.magic`: returns `current` unchanged. -/
def magic (_fuel current : Nat) (_s : RS) : Option Nat := some current

def version_constraints : List Constraint :=
  [.ivs [(2, 3)], .ivs [(0, 1), (4, UINT32)]]

/-- `fuzz.version`. -/
def version (fuel current : Nat) (s : RS) : Option Nat :=
  selector fuel current version_constraints false s

/-- `fuzz.backing_file_offset`. -/
def backing_file_offset (fuel current : Nat) (s : RS) : Option Nat :=
  selector fuel current [.ivs [(0, UINT64)]] false s

/-- `fuzz.backing_file_size`. -/
def backing_file_size (fuel current : Nat) (s : RS) : Option Nat :=
  selector fuel current [.ivs [(0, UINT32)]] false s

/-- The constraint table of `fuzz.cluster_bits`, exactly as in the source:
`[[(9, 20)], [(0, 9), (20, UINT32)]]`. -/
def cluster_bits_constraints : List Constraint :=
  [.ivs [(9, 20)], .ivs [(0, 9), (20, UINT32)]]

/-- `fuzz.cluster_bits`. -/
def cluster_bits (fuel current : Nat) (s : RS) : Option Nat :=
  selector fuel current cluster_bits_constraints false s

/-- `fuzz.size`. -/
def size (fuel current : Nat) (s : RS) : Option Nat :=
  selector fuel current [.ivs [(0, UINT64)]] false s

/-- `fuzz.crypt_method`. -/
def crypt_method (fuel current : Nat) (s : RS) : Option Nat :=
  selector fuel current [.ivs [(0, 1)], .ivs [(2, UINT32)]] false s

/-- `fuzz.l1_size`. -/
def l1_size (fuel current : Nat) (s : RS) : Option Nat :=
  selector fuel current [.ivs [(0, UINT32)]] false s

/-- `fuzz.l1_table_offset`. -/
def l1_table_offset (fuel current : Nat) (s : RS) : Option Nat :=
  selector fuel current [.ivs [(0, UINT64)]] false s

/-- `fuzz.refcount_table_offset`. -/
def refcount_table_offset (fuel current : Nat) (s : RS) : Option Nat :=
  selector fuel current [.ivs [(0, UINT64)]] false s

/-- `fuzz.refcount_table_clusters`. -/
def refcount_table_clusters (fuel current : Nat) (s : RS) : Option Nat :=
  selector fuel current [.ivs [(0, UINT32)]] false s

/-- `fuzz.nb_snapshots`. -/
def nb_snapshots (fuel current : Nat) (s : RS) : Option Nat :=
  selector fuel current [.ivs [(0, UINT32)]] false s

/-- `fuzz.snapshots_offset`. -/
def snapshots_offset (fuel current : Nat) (s : RS) : Option Nat :=
  selector fuel current [.ivs [(0, UINT64)]] false s

/-- `fuzz.incompatible_features` (bit-mask variant). -/
def incompatible_features (fuel current : Nat) (s : RS) : Option Nat :=
  selector fuel current [.ivs [(0, 1)], .ivs [(0, UINT64_M)]] true s

/-- `fuzz.compatible_features` (bit-mask variant). -/
def compatible_features (fuel current : Nat) (s : RS) : Option Nat :=
  selector fuel current [.ivs [(0, UINT64_M)]] true s

/-- `fuzz.autoclear_features` (bit-mask variant). -/
def autoclear_features (fuel current : Nat) (s : RS) : Option Nat :=
  selector fuel current [.ivs [(0, UINT64_M)]] true s

/-- `fuzz.refcount_order`. -/
def refcount_order (fuel current : Nat) (s : RS) : Option Nat :=
  selector fuel current [.ivs [(0, UINT32)]] false s

/-- `fuzz.header_length`: two literal constraints plus a broad interval. -/
def header_length (fuel current : Nat) (s : RS) : Option Nat :=
  selector fuel current [.lit 72, .lit 104, .ivs [(0, UINT32)]] false s

/-- All per-field fuzz functions of `fuzz.py` that are built on `selector`
(i.e. every one except the no-op `magic`), keyed by field name. -/
def fuzzFuncs : List (FName × (Nat → Nat → RS → Option Nat)) :=
  [(.version, version), (.backing_file_offset, backing_file_offset),
   (.backing_file_size, backing_file_size), (.cluster_bits, cluster_bits),
   (.size, size), (.crypt_method, crypt_method), (.l1_size, l1_size),
   (.l1_table_offset, l1_table_offset),
   (.refcount_table_offset, refcount_table_offset),
   (.refcount_table_clusters, refcount_table_clusters),
   (.nb_snapshots, nb_snapshots), (.snapshots_offset, snapshots_offset),
   (.incompatible_features, incompatible_features),
   (.compatible_features, compatible_features),
   (.autoclear_features, autoclear_features),
   (.refcount_order, refcount_order), (.header_length, header_length)]

/-- Number of literal constraints equal to `current` in a constraint list. -/
def litCount (current : Nat) : List Constraint → Nat
  | [] => 0
  | .lit v :: rest => (if v = current then 1 else 0) + litCount current rest
  | .ivs _ :: rest => litCount current rest

/-- The ascending list of elements of a finite set of cluster indices (the
iteration order Python presents for a set of small ints).  Implemented by
insertion sort so that it is kernel-reducible on concrete inputs. -/
def sortedList (s : Finset Nat) : List Nat :=
  Quot.lift (List.insertionSort (· ≤ ·))
    (fun l1 l2 h =>
      List.eq_of_perm_of_sorted
        (((List.perm_insertionSort (· ≤ ·) l1).trans h).trans
          (List.perm_insertionSort (· ≤ ·) l2).symm)
        (List.sorted_insertionSort (· ≤ ·) l1)
        (List.sorted_insertionSort (· ≤ ·) l2))
    s.val

/-! ## `layout.py`: cluster allocation -/

/-- `Image._get_available_clusters(used, number)`: a set of `number` indices
of unallocated clusters, sampled from the free range `[1, max(used)+1)` when
it is large enough, otherwise all free indices plus fresh ones appended above
`max(used)`.  `none` models the `ValueError` raised by `max(set())` on an
empty `used`. -/
def get_available_clusters (used : Finset Nat) (number : Nat) (s : RS) :
    Option (Finset Nat) :=
  if h : used.Nonempty then
    let append_id := used.max' h + 1
    let free := Finset.Ico 1 append_id \ used
    if number ≤ free.card then
      (sampleList number (sortedList free) s).map List.toFinset
    else
      some (free ∪ Finset.Ico append_id (append_id + (number - free.card)))
  else none

/-- The run-detection pass of `get_cluster_id`: fold the free list into
`(last-element, run-length)` pairs of maximal chains of consecutive values. -/
def runsAux : List Nat → (Nat × Nat) → List (Nat × Nat)
  | [], pair => [pair]
  | x :: rest, pair =>
    if x = pair.1 + 1 then runsAux rest (x, pair.2 + 1)
    else pair :: runsAux rest (x, 1)

/-- `get_cluster_id(lst, length)` inside `Image._get_adjacent_clusters`:
detect runs of consecutive free indices, shuffle them, and return the start
of the first shuffled run of length at least `length` (Python
`x - length + 1`), or `none`. -/
def get_cluster_id (lst : List Nat) (length : Nat) (s : RS) : Option Nat :=
  match lst with
  | [] => none
  | a :: rest =>
    let pairs := runsAux rest (a, 1)
    let shuffled := shuffleList pairs.length pairs s
    (shuffled.find? (fun p => decide (length ≤ p.2))).map
      (fun p => p.1 + 1 - length)

/-- `Image._get_adjacent_clusters(used, size)`: start index of a contiguous
run of `size` free clusters, appended past `max(used)` when no run fits.
`none` models the `ValueError` of `max(set())` on an empty `used`. -/
def get_adjacent_clusters (used : Finset Nat) (size0 : Nat) (s : RS) :
    Option Nat :=
  if h : used.Nonempty then
    let append_id := used.max' h + 1
    let free := sortedList (Finset.Ico 1 append_id \ used)
    match get_cluster_id free size0 (RS.sub s 0) with
    | none => some append_id
    | some idx => some idx
  else none

/-! ## `layout.py`: header -/

/-- The bytes of the magic string `"QFI\xfb"`. -/
def magicBytes : List Nat := [0x51, 0x46, 0x49, 0xfb]

/-- The `meta_header` literal of `Image.create_header` with the drawn
`version` value filled in (all other entries are the literal zeros and
constants of the source). -/
def headerMeta (cluster_bits0 image_size version0 : Nat) : List Field :=
  [⟨.beStr 4, 0, .s magicBytes, .magic⟩,
   ⟨.beInt 4, 4, .i version0, .version⟩,
   ⟨.beInt 8, 8, .i 0, .backing_file_offset⟩,
   ⟨.beInt 4, 16, .i 0, .backing_file_size⟩,
   ⟨.beInt 4, 20, .i cluster_bits0, .cluster_bits⟩,
   ⟨.beInt 8, 24, .i image_size, .size⟩,
   ⟨.beInt 4, 32, .i 0, .crypt_method⟩,
   ⟨.beInt 4, 36, .i 0, .l1_size⟩,
   ⟨.beInt 8, 40, .i 0, .l1_table_offset⟩,
   ⟨.beInt 8, 48, .i 0, .refcount_table_offset⟩,
   ⟨.beInt 4, 56, .i 0, .refcount_table_clusters⟩,
   ⟨.beInt 4, 60, .i 0, .nb_snapshots⟩,
   ⟨.beInt 8, 64, .i 0, .snapshots_offset⟩,
   ⟨.beInt 8, 72, .i 0, .incompatible_features⟩,
   ⟨.beInt 8, 80, .i 0, .compatible_features⟩,
   ⟨.beInt 8, 88, .i 0, .autoclear_features⟩,
   ⟨.beInt 4, 96, .i 4, .refcount_order⟩,
   ⟨.beInt 4, 100, .i 0, .header_length⟩]

/-- `Image.create_header(cluster_bits, backing_file_name)`: build the header
field list; version 2 forces `header_length = 72`, version 3 draws
`getrandbits(2)` / `getrandbits(1)` feature masks and sets
`header_length = 104`; then place the backing file name at the tail of
cluster 0 if it fits.  Draws: `s 0` for `randint(2, 3)`, `s 1` and `s 2` for
the two `getrandbits` calls. -/
def create_header (cluster_bits0 image_size cluster_size : Nat)
    (backing_file_name : Option (List Nat)) (s : RS) : List Field :=
  let version0 := randint 2 3 (s 0)
  let hdr := headerMeta cluster_bits0 image_size version0
  let hdr :=
    if version0 = 2 then setFieldValue hdr .header_length (.i 72)
    else
      setFieldValue
        (setFieldValue
          (setFieldValue hdr .incompatible_features (.i (s 1 % 4)))
          .compatible_features (.i (s 2 % 2)))
        .header_length (.i 104)
  -- max_header_len = calcsize('>I') + offset(header_length) = 4 + 100
  let max_header_len : Int := 104
  let end_of_extension_area_len : Int := 8
  let free_space : Int :=
    (cluster_size : Int) - max_header_len - end_of_extension_area_len
  match backing_file_name with
  | none => hdr
  | some bfn =>
    if (bfn.length : Int) ≤ free_space then
      setFieldValue
        (setFieldValue hdr .backing_file_size (.i bfn.length))
        .backing_file_offset (.i (cluster_size - bfn.length))
    else hdr

/-! ## `layout.py`: feature-name-table extension -/

/-- The bytes of the fixed feature name `'some cool feature'` (17 bytes). -/
def featNameBytes : List Nat :=
  [115, 111, 109, 101, 32, 99, 111, 111, 108, 32, 102, 101, 97, 116, 117,
   114, 101]

/-- The duplicate-avoidance loop around `gen_feat_ids`: draw
`(randint(0,2), randint(0,63))` pairs until one is not already used; `fuel`
bounds the unbounded Python `while`. -/
def genFreshPair : Nat → List (Nat × Nat) → RS → Option (Nat × Nat)
  | 0, _, _ => none
  | fuel + 1, usedIds, s =>
    let p : Nat × Nat := (s 0 % 3, s 1 % 64)
    if p ∈ usedIds then genFreshPair fuel usedIds (RS.drop s 2)
    else some p

/-- The entry-building `while` loop of `create_feature_name_table`: build
`count` (type, bit, name) field triplets, 48 bytes apart, with pairwise
distinct `(type, bit)` pairs; entry number `idx` draws from substream `idx`
of `s`. -/
def buildFNTEntries : Nat → Nat → List (Nat × Nat) → Nat → RS → Nat →
    Option (List Field)
  | 0, _, _, _, _, _ => some []
  | count + 1, fuel, usedIds, inner_offset, s, idx =>
    match genFreshPair fuel usedIds (RS.sub s idx) with
    | none => none
    | some p =>
      match buildFNTEntries count fuel (usedIds ++ [p]) (inner_offset + 48)
          s (idx + 1) with
      | none => none
      | some rest =>
        some (⟨.beInt 1, inner_offset, .i p.1, .feature_type⟩ ::
              ⟨.beInt 1, inner_offset + 1, .i p.2, .feature_bit_number⟩ ::
              ⟨.beStr 17, inner_offset + 2, .s featNameBytes, .feature_name⟩ ::
              rest)

/-- The (type, bit-number, name) field triplets of a feature-name table for
a given list of `(feat_type, feat_bit)` pairs, laid out 48 bytes apart: the
shape `buildFNTEntries` produces, as a function of the drawn pairs. -/
def fntTriplets : List (Nat × Nat) → Nat → List Field
  | [], _ => []
  | p :: rest, inner_offset =>
    ⟨.beInt 1, inner_offset, .i p.1, .feature_type⟩ ::
    ⟨.beInt 1, inner_offset + 1, .i p.2, .feature_bit_number⟩ ::
    ⟨.beStr 17, inner_offset + 2, .s featNameBytes, .feature_name⟩ ::
    fntTriplets rest (inner_offset + 48)

/-- The number of feature-name-table entries `create_feature_name_table`
decides to generate: `min(10, (free_space - ext_header_len) / fnt_entry_size)`
in Python 2 floor-division arithmetic (which is negative when
`free_space < 8`). -/
def fntNum (bfo cluster_size offset : Nat) : Int :=
  let high_border : Int :=
    (if bfo ≠ 0 then (bfo : Int) else (cluster_size : Int) - 1) - 8
  let free_space : Int := high_border - (offset : Int)
  min 10 ((free_space - 8).fdiv 48)

/-- `Image.create_feature_name_table(offset)`: when the entry count is
nonzero (including the negative case, where the loop body never runs), emit
the extension magic, a length field of `len(feature_tables) / 3 * 48`, and the
entry triplets, returning the advanced offset; when it is zero, emit nothing.
`bfo` is the header's `backing_file_offset` value.  `none` models a
non-terminating duplicate-avoidance loop (fuel exhaustion). -/
def create_feature_name_table (bfo cluster_size offset fuel : Nat) (s : RS) :
    Option (List Field × Nat) :=
  let num := fntNum bfo cluster_size offset
  if num ≠ 0 then
    let cnt := num.toNat
    match buildFNTEntries cnt fuel [] (offset + 8) s 0 with
    | none => none
    | some entries =>
      some (⟨.beInt 4, offset, .i 0x6803f857, .ext_magic⟩ ::
            ⟨.beInt 4, offset + 4, .i (entries.length / 3 * 48), .ext_length⟩ ::
            entries,
            offset + 8 + 48 * cnt)
  else some ([], offset)

/-! ## `layout.py`: L2 tables -/

/-- The partitioning `while` loop of `create_l2_tables`: repeatedly draw
`num_of_entries = randint(low_lim, l2_size)` (capped at the remaining count),
split that many data clusters off, and pair them with
`random.sample(range(l2_size), num_of_entries)` slot indices.  `none` models
a non-terminating loop (fuel exhaustion) or a `ValueError` from
`random.sample`. -/
def splitLoop (low_lim l2_size : Nat) :
    Nat → List Nat → RS → Option (List (List (Nat × Nat)))
  | 0, temp, _ => if temp = [] then some [] else none
  | fuel + 1, temp, s =>
    if temp = [] then some []
    else
      match sampleList (min (randint low_lim l2_size (s 0)) temp.length)
          (List.range l2_size) (RS.sub s 1) with
      | none => none
      | some ids =>
        (splitLoop low_lim l2_size fuel
          (temp.drop (min (randint low_lim l2_size (s 0)) temp.length))
          (RS.sub s 2)).map
          (fun rest =>
            ids.zip (temp.take (min (randint low_lim l2_size (s 0))
              temp.length)) :: rest)

/-- The low bit added to an L2 cluster descriptor: `randint(0, 1)` for
version ≥ 3, zero for version 2.  Entry `(i, j)` reads stream position
`pair i j`. -/
def l2EntryBit (version0 : Nat) (s : RS) (i j : Nat) : Nat :=
  if version0 = 2 then 0 else s (Nat.pair i j) % 2

/-- The inner loop of `create_entry`: the L2 entry fields of one table at
cluster `cid`, for group entries `(entry_id, data_cluster)`. -/
def l2TableFields (cluster_size version0 : Nat) (s : RS) (cid : Nat) :
    List (Nat × Nat) → Nat → Nat → List Field
  | [], _, _ => []
  | ed :: grest, i, j =>
    ⟨.beInt 8, cid * cluster_size + ed.1 * 8,
     .i (2 ^ 63 + ed.2 * cluster_size + l2EntryBit version0 s i j),
     .l2_entry⟩ :: l2TableFields cluster_size version0 s cid grest i (j + 1)

/-- `reduce(create_entry, zip(l2_clusters, l2_content), [])`: all L2 entry
fields over the (cluster, group) pairs. -/
def l2Fields (cluster_size version0 : Nat) (s : RS) :
    List (Nat × List (Nat × Nat)) → Nat → List Field
  | [], _ => []
  | cg :: rest, i =>
    l2TableFields cluster_size version0 s cg.1 cg.2 i 0 ++
      l2Fields cluster_size version0 s rest (i + 1)

/-- `ceil(UINT64_S * image_size / float(cluster_size ** 2))`: the number of
L2 tables needed for all guest clusters.  The float arithmetic of the source
is exact for the magnitudes involved (`8 * image_size < 2 ^ 27`), so this is
the exact ceiling. -/
def maxL2Size (cluster_size image_size : Nat) : Nat :=
  (8 * image_size + cluster_size ^ 2 - 1) / cluster_size ^ 2

/-- `int(ceil(len(temp) / max_l2_size))`: minimum number of active entries
per L2 table. -/
def lowLim (count max_l2 : Nat) : Nat := (count + max_l2 - 1) / max_l2

/-- `temp = list(self.data_clusters); random.shuffle(temp)`. -/
def l2Temp (data_clusters : Finset Nat) (s : RS) : List Nat :=
  shuffleList (sortedList data_clusters).length
    (sortedList data_clusters) s

/-- `Image.create_l2_tables()` (with `meta_data = None`, i.e.
`v_meta_data = {0}`): shuffle the data clusters, partition them into groups,
allocate one metadata cluster per group via `_get_available_clusters`
(excluding data clusters and cluster 0), and emit the entry fields. -/
def create_l2_tables (data_clusters : Finset Nat)
    (cluster_size image_size version0 : Nat) (s : RS) : Option (List Field) :=
  if data_clusters.card = 0 then some []
  else
    match splitLoop
        (lowLim (l2Temp data_clusters (RS.sub s 0)).length
          (maxL2Size cluster_size image_size))
        (cluster_size / 8)
        (l2Temp data_clusters (RS.sub s 0)).length
        (l2Temp data_clusters (RS.sub s 0)) (RS.sub s 1) with
    | none => none
    | some l2_content =>
      match get_available_clusters (data_clusters ∪ {0}) l2_content.length
          (RS.sub s 2) with
      | none => none
      | some l2_clusters =>
        some (l2Fields cluster_size version0 (RS.sub s 3)
          ((sortedList l2_clusters).zip l2_content) 0)

/-- The data-cluster index encoded by an L2 entry value: strip the reserved
top bit and divide by the cluster size (left inverse of the entry
construction rule). -/
def l2DataIdx (cluster_size : Nat) (f : Field) : Nat :=
  match f.value with
  | .i v => (v - 2 ^ 63) / cluster_size
  | .s _ => 0

/-! ## `layout.py`: the fuzz pass (`Image.fuzz`) -/

/-- Failure of a fuzz pass: `attr name` is the `AttributeError` raised by
`getattr(fuzz, name)` for an unregistered name; `fuel` is the modelling
artifact for a non-terminating validator recursion. -/
inductive FuzzErr : Type
  | attr : FName → FuzzErr
  | fuel : FuzzErr
deriving DecidableEq

/-- Lift a numeric per-field fuzz function to field values (`none` on a
string value, which no registered numeric field ever holds). -/
def liftNum (fn : Nat → Nat → RS → Option Nat) (fuel : Nat) (v : Val)
    (s : RS) : Option Val :=
  match v with
  | .i n => (fn fuel n s).map Val.i
  | .s _ => none

/-- `getattr(fuzz, name)`: the fuzz function registered for a field name, or
`none` when `fuzz.py` defines no function of that name (`AttributeError`). -/
def getattrFuzz : FName → Option (Nat → Val → RS → Option Val)
  | .magic => some (fun fuel v s => (magic fuel 0 s).map (fun _ => v))
  | .version => some (liftNum version)
  | .backing_file_offset => some (liftNum backing_file_offset)
  | .backing_file_size => some (liftNum backing_file_size)
  | .cluster_bits => some (liftNum cluster_bits)
  | .size => some (liftNum size)
  | .crypt_method => some (liftNum crypt_method)
  | .l1_size => some (liftNum l1_size)
  | .l1_table_offset => some (liftNum l1_table_offset)
  | .refcount_table_offset => some (liftNum refcount_table_offset)
  | .refcount_table_clusters => some (liftNum refcount_table_clusters)
  | .nb_snapshots => some (liftNum nb_snapshots)
  | .snapshots_offset => some (liftNum snapshots_offset)
  | .incompatible_features => some (liftNum incompatible_features)
  | .compatible_features => some (liftNum compatible_features)
  | .autoclear_features => some (liftNum autoclear_features)
  | .refcount_order => some (liftNum refcount_order)
  | .header_length => some (liftNum header_length)
  | _ => none

/-- The whole-image / whole-substructure loop of `Image.fuzz`
(`fields_to_fuzz is None`, or a one-element selection item): for each field,
flip the coin and, on success, apply `getattr(fuzz, field.name)` with NO
exception handler — an unregistered name raises `AttributeError`.  Field
number `i` draws its coin from `s (pair i 0)` and feeds its fuzz function
from the rest of substream `i`. -/
def fuzzAllGo (fuel : Nat) : List Field → Nat → RS → Except FuzzErr (List Field)
  | [], _, _ => .ok []
  | f :: rest, i, s =>
    if s (Nat.pair i 0) % 2 = 0 then
      match getattrFuzz f.name with
      | none => .error (.attr f.name)
      | some fn =>
        match fn fuel f.value (fun n => s (Nat.pair i (n + 1))) with
        | none => .error .fuel
        | some v =>
          (fuzzAllGo fuel rest (i + 1) s).map
            (fun l => { f with value := v } :: l)
    else (fuzzAllGo fuel rest (i + 1) s).map (fun l => f :: l)

/-- The exact-field branch of `Image.fuzz` (a two-element selection item):
every field of the substructure whose name matches is always fuzzed, with
`AttributeError` caught and the field skipped. -/
def fuzzExactGo (fuel : Nat) (fname : FName) :
    List Field → Nat → RS → Except FuzzErr (List Field)
  | [], _, _ => .ok []
  | f :: rest, i, s =>
    if f.name = fname then
      match getattrFuzz f.name with
      | none =>
        -- except AttributeError: pass
        (fuzzExactGo fuel fname rest (i + 1) s).map (fun l => f :: l)
      | some fn =>
        match fn fuel f.value (fun n => s (Nat.pair i n)) with
        | none => .error .fuel
        | some v =>
          (fuzzExactGo fuel fname rest (i + 1) s).map
            (fun l => { f with value := v } :: l)
    else (fuzzExactGo fuel fname rest (i + 1) s).map (fun l => f :: l)

/-! ## `layout.py`: the writer (`Image.write`) -/

/-- Big-endian byte encoding of `v` in `n` bytes (`struct.pack` for `'B'`,
`'>I'`, `'>Q'`). -/
def beBytes : Nat → Nat → List Nat
  | 0, _ => []
  | k + 1, v => beBytes k (v / 256) ++ [v % 256]

/-- `struct.pack(fmt, value)` for the formats the generator uses: big-endian
integers, and byte strings zero-padded to the declared size. -/
def packBytes : Fmt → Val → List Nat
  | .beInt n, .i v => beBytes n v
  | .beInt n, .s _ => List.replicate n 0
  | .beStr n, .s bs => bs.take n ++ List.replicate (n - bs.length) 0
  | .beStr n, .i _ => List.replicate n 0

/-- `Image.write`: seek to each field's offset and write its packed bytes;
the serialized output is the list of `(offset, bytes)` writes. -/
def writeImage (fields : List Field) : List (Nat × List Nat) :=
  fields.map (fun f => (f.offset, packBytes f.fmt f.value))

end QcowFuzz

namespace QcowFuzz

theorem cons_eraseIdx_perm {α : Type} :
    ∀ (l : List α) (i : Nat) (h : i < l.length),
      (l.get ⟨i, h⟩ :: l.eraseIdx i).Perm l
  | _ :: _, 0, _ => List.Perm.refl _
  | a :: t, i + 1, h => by
    have ht : i < t.length := by simpa using Nat.lt_of_succ_lt_succ h
    have ih := cons_eraseIdx_perm t i ht
    simp only [List.get, List.eraseIdx]
    exact (List.Perm.swap a (t.get ⟨i, ht⟩) (t.eraseIdx i)).trans (ih.cons a)

theorem sampleList_length {α : Type} :
    ∀ (k : Nat) (l : List α) (s : RS) (out : List α),
      sampleList k l s = some out → out.length = k
  | 0, _, _, out => by
    intro h
    simp only [sampleList, Option.some.injEq] at h
    simp [← h]
  | _ + 1, [], _, _ => by intro h; simp [sampleList] at h
  | k + 1, a :: t, s, out => by
    intro h
    simp only [sampleList, Option.map_eq_some'] at h
    obtain ⟨rest, hrest, hout⟩ := h
    have ih := sampleList_length k _ _ _ hrest
    simp [← hout, ih]

theorem sampleList_mem {α : Type} :
    ∀ (k : Nat) (l : List α) (s : RS) (out : List α),
      sampleList k l s = some out → ∀ x ∈ out, x ∈ l
  | 0, _, _, out => by
    intro h
    simp only [sampleList, Option.some.injEq] at h
    simp [← h]
  | _ + 1, [], _, _ => by intro h; simp [sampleList] at h
  | k + 1, a :: t, s, out => by
    intro h x hx
    simp only [sampleList, Option.map_eq_some'] at h
    obtain ⟨rest, hrest, hout⟩ := h
    have hperm := cons_eraseIdx_perm (a :: t)
      (s 0 % (a :: t).length) (Nat.mod_lt _ (Nat.succ_pos t.length))
    rw [← hout] at hx
    rcases List.mem_cons.mp hx with hx | hx
    · exact hperm.subset (hx ▸ List.mem_cons_self _ _)
    · have := sampleList_mem k _ _ _ hrest x hx
      exact hperm.subset (List.mem_cons_of_mem _ this)

theorem sampleList_nodup {α : Type} :
    ∀ (k : Nat) (l : List α) (s : RS) (out : List α),
      l.Nodup → sampleList k l s = some out → out.Nodup
  | 0, _, _, out => by
    intro _ h
    simp only [sampleList, Option.some.injEq] at h
    simp [← h]
  | _ + 1, [], _, _ => by intro _ h; simp [sampleList] at h
  | k + 1, a :: t, s, out => by
    intro hnd h
    simp only [sampleList, Option.map_eq_some'] at h
    obtain ⟨rest, hrest, hout⟩ := h
    have hperm := cons_eraseIdx_perm (a :: t)
      (s 0 % (a :: t).length) (Nat.mod_lt _ (Nat.succ_pos t.length))
    have hnd' : ((a :: t).get ⟨s 0 % (a :: t).length,
        Nat.mod_lt _ (Nat.succ_pos t.length)⟩ ::
        (a :: t).eraseIdx (s 0 % (a :: t).length)).Nodup :=
      hperm.nodup_iff.mpr hnd
    have hndrest : rest.Nodup :=
      sampleList_nodup k _ _ _ (List.nodup_cons.mp hnd').2 hrest
    rw [← hout]
    refine List.nodup_cons.mpr ⟨fun hmem => ?_, hndrest⟩
    exact (List.nodup_cons.mp hnd').1 (sampleList_mem k _ _ _ hrest _ hmem)

theorem sampleList_isSome {α : Type} :
    ∀ (k : Nat) (l : List α) (s : RS), k ≤ l.length →
      (sampleList k l s).isSome
  | 0, _, _ => by intro _; simp [sampleList]
  | k + 1, [], _ => by intro h; simp at h
  | k + 1, a :: t, s => by
    intro h
    have hperm := cons_eraseIdx_perm (a :: t)
      (s 0 % (a :: t).length) (Nat.mod_lt _ (Nat.succ_pos t.length))
    have hlen : ((a :: t).eraseIdx (s 0 % (a :: t).length)).length = t.length := by
      have := hperm.length_eq
      simpa using this
    have ih := sampleList_isSome k ((a :: t).eraseIdx (s 0 % (a :: t).length))
      (RS.drop s 1) (by rw [hlen]; exact Nat.lt_succ_iff.mp (Nat.lt_of_lt_of_le (Nat.lt_succ_of_le (le_refl _)) (by simpa using h)))
    simp only [sampleList]
    obtain ⟨rest, hrest⟩ := Option.isSome_iff_exists.mp ih
    rw [hrest]
    rfl

theorem shuffleList_perm {α : Type} :
    ∀ (k : Nat) (l : List α) (s : RS), (shuffleList k l s).Perm l
  | 0, l, _ => List.Perm.refl l
  | _ + 1, [], _ => List.Perm.refl []
  | k + 1, a :: t, s => by
    have ih := shuffleList_perm k ((a :: t).eraseIdx (s 0 % (a :: t).length))
      (RS.drop s 1)
    simp only [shuffleList]
    exact (ih.cons _).trans (cons_eraseIdx_perm _ _ _)

theorem mem_sortedList (s : Finset Nat) (a : Nat) :
    a ∈ sortedList s ↔ a ∈ s := by
  rcases s with ⟨m, hm⟩
  revert hm
  induction m using Quotient.inductionOn with
  | h l =>
    intro hm
    show a ∈ List.insertionSort (· ≤ ·) l ↔ _
    rw [List.Perm.mem_iff (List.perm_insertionSort _ l)]
    exact (Multiset.mem_coe).symm

theorem sortedList_length (s : Finset Nat) :
    (sortedList s).length = s.card := by
  rcases s with ⟨m, hm⟩
  revert hm
  induction m using Quotient.inductionOn with
  | h l =>
    intro hm
    show (List.insertionSort (· ≤ ·) l).length = _
    rw [List.Perm.length_eq (List.perm_insertionSort _ l)]
    rfl

theorem sortedList_nodup (s : Finset Nat) : (sortedList s).Nodup := by
  rcases s with ⟨m, hm⟩
  revert hm
  induction m using Quotient.inductionOn with
  | h l =>
    intro hm
    show (List.insertionSort (· ≤ ·) l).Nodup
    exact (List.Perm.nodup_iff (List.perm_insertionSort _ l)).mpr
      (Multiset.coe_nodup.mp hm)

theorem get_available_clusters_spec (used : Finset Nat) (number : Nat)
    (s : RS) (h : used.Nonempty) :
    ∃ r, get_available_clusters used number s = some r ∧
      r.card = number ∧ Disjoint r used := by
  unfold get_available_clusters
  rw [dif_pos h]
  by_cases hc : number ≤ (Finset.Ico 1 (used.max' h + 1) \ used).card
  · rw [if_pos hc]
    have hlen : number ≤
        (sortedList (Finset.Ico 1 (used.max' h + 1) \ used)).length := by
      rwa [sortedList_length]
    obtain ⟨out, hout⟩ :=
      Option.isSome_iff_exists.mp (sampleList_isSome number _ s hlen)
    refine ⟨out.toFinset, by rw [hout]; rfl, ?_, ?_⟩
    · have hnd : out.Nodup :=
        sampleList_nodup _ _ _ _ (sortedList_nodup _) hout
      rw [List.toFinset_card_of_nodup hnd]
      exact sampleList_length _ _ _ _ hout
    · rw [Finset.disjoint_left]
      intro x hx hxu
      have hxf : x ∈ Finset.Ico 1 (used.max' h + 1) \ used :=
        (mem_sortedList _ _).mp
          (sampleList_mem _ _ _ _ hout x (List.mem_toFinset.mp hx))
      exact (Finset.mem_sdiff.mp hxf).2 hxu
  · rw [if_neg hc]
    refine ⟨_, rfl, ?_, ?_⟩
    · rw [Finset.card_union_of_disjoint, Nat.card_Ico]
      · omega
      · rw [Finset.disjoint_left]
        intro x hx hx2
        have h1 := Finset.mem_Ico.mp (Finset.mem_sdiff.mp hx).1
        have h2 := Finset.mem_Ico.mp hx2
        omega
    · rw [Finset.disjoint_left]
      intro x hx hxu
      rcases Finset.mem_union.mp hx with hx | hx
      · exact (Finset.mem_sdiff.mp hx).2 hxu
      · have h1 := Finset.mem_Ico.mp hx
        have h2 := Finset.le_max' used x hxu
        omega

theorem runsAux_good (L : List Nat) :
    ∀ (rest : List Nat) (p0 : Nat × Nat),
      (∀ x ∈ rest, x ∈ L) → (∀ j < p0.2, p0.1 - j ∈ L) →
      ∀ q ∈ runsAux rest p0, ∀ j < q.2, q.1 - j ∈ L
  | [], p0 => by
    intro _ hp0 q hq
    simp only [runsAux, List.mem_singleton] at hq
    subst hq
    exact hp0
  | x :: rest, p0 => by
    intro hrest hp0 q hq
    simp only [runsAux] at hq
    by_cases hx : x = p0.1 + 1
    · rw [if_pos hx] at hq
      refine runsAux_good L rest (x, p0.2 + 1)
        (fun y hy => hrest y (List.mem_cons_of_mem _ hy)) ?_ q hq
      intro j hj
      match j with
      | 0 => simpa using hrest x (List.mem_cons_self x rest)
      | j + 1 =>
        have hmem : p0.1 - j ∈ L := hp0 j (by simpa using hj)
        simpa [hx, Nat.succ_sub_succ] using hmem
    · rw [if_neg hx] at hq
      rcases List.mem_cons.mp hq with hq | hq
      · subst hq; exact hp0
      · refine runsAux_good L rest (x, 1)
          (fun y hy => hrest y (List.mem_cons_of_mem _ hy)) ?_ q hq
        intro j hj
        interval_cases j
        simpa using hrest x (List.mem_cons_self x rest)

theorem get_cluster_id_spec (lst : List Nat) (length0 : Nat) (s : RS)
    (idx : Nat) (hpos : ∀ x ∈ lst, 1 ≤ x)
    (h : get_cluster_id lst length0 s = some idx) :
    ∀ i < length0, idx + i ∈ lst := by
  match lst with
  | [] => simp [get_cluster_id] at h
  | a :: rest =>
    simp only [get_cluster_id, Option.map_eq_some'] at h
    obtain ⟨p, hfind, hidx⟩ := h
    have hmem : p ∈ shuffleList (runsAux rest (a, 1)).length
        (runsAux rest (a, 1)) s := List.mem_of_find?_eq_some hfind
    have hlen : length0 ≤ p.2 := by
      have := List.find?_some hfind
      simpa using this
    have hp : p ∈ runsAux rest (a, 1) :=
      (shuffleList_perm _ _ _).mem_iff.mp hmem
    have hgood : ∀ j < p.2, p.1 - j ∈ (a :: rest) :=
      runsAux_good (a :: rest) rest (a, 1)
        (fun y hy => List.mem_cons_of_mem _ hy)
        (by
          intro j hj
          interval_cases j
          simp)
        p hp
    intro i hi
    have hple : p.2 ≤ p.1 := by
      have hmin : p.1 - (p.2 - 1) ∈ (a :: rest) := hgood (p.2 - 1) (by omega)
      have := hpos _ hmin
      omega
    have heq : idx + i = p.1 - (length0 - 1 - i) := by omega
    rw [heq]
    exact hgood _ (by omega)

theorem get_adjacent_clusters_spec (used : Finset Nat) (size0 : Nat) (s : RS)
    (h : used.Nonempty) :
    ∃ start, get_adjacent_clusters used size0 s = some start ∧
      ∀ i < size0, start + i ∉ used := by
  unfold get_adjacent_clusters
  rw [dif_pos h]
  cases hgc : get_cluster_id
      (sortedList (Finset.Ico 1 (used.max' h + 1) \ used)) size0
      (RS.sub s 0) with
  | none =>
    refine ⟨used.max' h + 1, by simp only [hgc], ?_⟩
    intro i _ hmem
    have := Finset.le_max' used _ hmem
    omega
  | some idx =>
    refine ⟨idx, by simp only [hgc], ?_⟩
    intro i hi hmem
    have hpos : ∀ x ∈ sortedList (Finset.Ico 1 (used.max' h + 1) \ used),
        1 ≤ x := by
      intro x hx
      have hxf := Finset.mem_sdiff.mp ((mem_sortedList _ _).mp hx)
      exact (Finset.mem_Ico.mp hxf.1).1
    have hin := get_cluster_id_spec _ size0 _ idx hpos hgc i hi
    exact (Finset.mem_sdiff.mp ((mem_sortedList _ _).mp hin)).2 hmem

/-- C5: for every non-empty set `used` of cluster indices and every count
`n ≥ 0`, `_get_available_clusters(used, n)` returns a set of exactly `n`
cluster indices that is disjoint from `used`. -/
theorem c5_get_available_clusters_exact_disjoint (used : Finset Nat)
    (number : Nat) (s : RS) (h : used.Nonempty) :
    ∃ r, get_available_clusters used number s = some r ∧
      r.card = number ∧ Disjoint r used :=
  get_available_clusters_spec used number s h

theorem c5_witness :
    ∃ r, get_available_clusters {0} 2 (fun _ => 0) = some r ∧
      r.card = 2 ∧ Disjoint r {0} :=
  c5_get_available_clusters_exact_disjoint {0} 2 (fun _ => 0)
    ⟨0, Finset.mem_singleton_self 0⟩

/-- C6: for every non-empty set `used` of cluster indices and every run
length `n`, `_get_adjacent_clusters(used, n)` returns a start index such that
the interval `[start, start + n)` is disjoint from `used`. -/
theorem c6_get_adjacent_clusters_run_disjoint (used : Finset Nat)
    (size0 : Nat) (s : RS) (h : used.Nonempty) :
    ∃ start, get_adjacent_clusters used size0 s = some start ∧
      ∀ i < size0, start + i ∉ used :=
  get_adjacent_clusters_spec used size0 s h

theorem c6_witness :
    ∃ start, get_adjacent_clusters {0} 3 (fun _ => 0) = some start ∧
      ∀ i < 3, start + i ∉ ({0} : Finset Nat) :=
  c6_get_adjacent_clusters_run_disjoint {0} 3 (fun _ => 0)
    ⟨0, Finset.mem_singleton_self 0⟩

/-- C7: both allocator operations fail fast on an empty `used` set (Python
raises `ValueError` from `max(set())`, modelled as `none`) instead of
silently proceeding or returning index 0. -/
theorem c7_empty_used_fails (number size0 : Nat) (s t : RS) :
    get_available_clusters ∅ number s = none ∧
    get_adjacent_clusters ∅ size0 t = none := by
  constructor
  · unfold get_available_clusters
    rw [dif_neg]
    simp [Finset.not_nonempty_empty]
  · unfold get_adjacent_clusters
    rw [dif_neg]
    simp [Finset.not_nonempty_empty]

theorem validator_ne :
    ∀ (fuel current : Nat) (intervals : List (Nat × Nat)) (s : RS) (v : Nat),
      validator fuel current intervals s = some v → v ≠ current
  | 0, _, _, _, _ => by intro h; simp [validator] at h
  | fuel + 1, current, intervals, s, v => by
    intro h
    simp only [validator] at h
    by_cases hv : random_from_intervals intervals (s 0) = current
    · rw [if_pos hv] at h
      exact validator_ne fuel current intervals (RS.drop s 1) v h
    · rw [if_neg hv] at h
      injection h with h
      subst h
      exact hv

theorem bit_validator_ne :
    ∀ (fuel current : Nat) (bit_ranges : List (Nat × Nat)) (s : RS) (v : Nat),
      bit_validator fuel current bit_ranges s = some v → v ≠ current
  | 0, _, _, _, _ => by intro h; simp [bit_validator] at h
  | fuel + 1, current, bit_ranges, s, v => by
    intro h
    simp only [bit_validator] at h
    cases hrb : random_bits bit_ranges (RS.sub s 0) with
    | none => simp [hrb] at h
    | some val =>
      simp only [hrb] at h
      by_cases hv : val = current
      · rw [if_pos hv] at h
        exact bit_validator_ne fuel current bit_ranges (RS.sub s 1) v h
      · rw [if_neg hv] at h
        injection h with h
        subst h
        exact hv

theorem collectValues_count (fuel current : Nat) (bm : Bool) (s : RS) :
    ∀ (cs : List Constraint) (i : Nat) (vals : List Nat),
      collectValues fuel current bm s i cs = some vals →
      vals.count current ≤ litCount current cs
  | [], _, vals => by
    intro h
    simp only [collectValues, Option.some.injEq] at h
    simp [← h, litCount]
  | c :: rest, i, vals => by
    intro h
    simp only [collectValues] at h
    cases c with
    | lit w =>
      cases hrec : collectValues fuel current bm s (i + 1) rest with
      | none => simp [hrec] at h
      | some vs =>
        simp only [hrec, Option.some.injEq] at h
        have ih := collectValues_count fuel current bm s rest (i + 1) vs hrec
        by_cases hw : w = current <;>
          simp [← h, litCount, List.count_cons, hw] <;> omega
    | ivs lset =>
      cases hov : (if bm then bit_validator fuel current lset (RS.sub s i)
          else validator fuel current lset (RS.sub s i)) with
      | none => simp [hov] at h
      | some v0 =>
        simp only [hov] at h
        have hv0 : v0 ≠ current := by
          cases bm with
          | false =>
            simp only [if_neg Bool.false_ne_true] at hov
            exact validator_ne fuel current lset (RS.sub s i) v0 hov
          | true =>
            simp only [if_pos rfl] at hov
            exact bit_validator_ne fuel current lset (RS.sub s i) v0 hov
        cases hrec : collectValues fuel current bm s (i + 1) rest with
        | none => simp [hrec] at h
        | some vs =>
          simp only [hrec, Option.some.injEq] at h
          have ih := collectValues_count fuel current bm s rest (i + 1) vs hrec
          simp [← h, litCount, List.count_cons, hv0]
          exact ih

theorem selector_ne (fuel current : Nat) (cs : List Constraint) (bm : Bool)
    (s : RS) (v : Nat) (hlit : litCount current cs ≤ 1)
    (h : selector fuel current cs bm s = some v) : v ≠ current := by
  unfold selector at h
  cases hcv : collectValues fuel current bm s 1 cs with
  | none => simp [hcv] at h
  | some vals =>
    simp only [hcv] at h
    have hcount := collectValues_count fuel current bm s cs 1 vals hcv
    have hzero : (vals.erase current).count current = 0 := by
      rw [List.count_erase_self]
      omega
    have hnotmem : current ∉ vals.erase current := List.count_eq_zero.mp hzero
    have hvmem : v ∈ vals.erase current := List.get?_mem h
    exact fun he => hnotmem (he ▸ hvmem)

/-- C2: every per-field fuzz function built on the generic `selector` returns
a value different from `current`, for every current value (in particular
`version(2)` never returns 2 and `cluster_bits(12)` never returns 12);
`fuzzFuncs` enumerates exactly those functions. -/
theorem c2_selector_fuzz_ne_current (i : Nat) (nm : FName)
    (fn : Nat → Nat → RS → Option Nat) (fuel current : Nat) (s : RS) (v : Nat)
    (hget : fuzzFuncs.get? i = some (nm, fn))
    (hres : fn fuel current s = some v) : v ≠ current := by
  have hl1 : ∀ l : List (Nat × Nat),
      litCount current [Constraint.ivs l] ≤ 1 := by
    intro l; simp [litCount]
  have hl2 : ∀ l l' : List (Nat × Nat),
      litCount current [Constraint.ivs l, Constraint.ivs l'] ≤ 1 := by
    intro l l'; simp [litCount]
  have hlh : litCount current
      [Constraint.lit 72, Constraint.lit 104, Constraint.ivs [(0, UINT32)]] ≤ 1 := by
    by_cases h72 : (72 : Nat) = current <;>
      by_cases h104 : (104 : Nat) = current <;>
      simp [litCount, h72, h104] <;> omega
  rcases i with _ | _ | _ | _ | _ | _ | _ | _ | _ | _ | _ | _ | _ | _ | _ | _ | _ | i
  · simp only [fuzzFuncs, List.get?, Option.some.injEq, Prod.mk.injEq] at hget
    obtain ⟨-, rfl⟩ := hget
    exact selector_ne fuel current _ _ s v (hl2 _ _) hres
  · simp only [fuzzFuncs, List.get?, Option.some.injEq, Prod.mk.injEq] at hget
    obtain ⟨-, rfl⟩ := hget
    exact selector_ne fuel current _ _ s v (hl1 _) hres
  · simp only [fuzzFuncs, List.get?, Option.some.injEq, Prod.mk.injEq] at hget
    obtain ⟨-, rfl⟩ := hget
    exact selector_ne fuel current _ _ s v (hl1 _) hres
  · simp only [fuzzFuncs, List.get?, Option.some.injEq, Prod.mk.injEq] at hget
    obtain ⟨-, rfl⟩ := hget
    exact selector_ne fuel current _ _ s v (hl2 _ _) hres
  · simp only [fuzzFuncs, List.get?, Option.some.injEq, Prod.mk.injEq] at hget
    obtain ⟨-, rfl⟩ := hget
    exact selector_ne fuel current _ _ s v (hl1 _) hres
  · simp only [fuzzFuncs, List.get?, Option.some.injEq, Prod.mk.injEq] at hget
    obtain ⟨-, rfl⟩ := hget
    exact selector_ne fuel current _ _ s v (hl2 _ _) hres
  · simp only [fuzzFuncs, List.get?, Option.some.injEq, Prod.mk.injEq] at hget
    obtain ⟨-, rfl⟩ := hget
    exact selector_ne fuel current _ _ s v (hl1 _) hres
  · simp only [fuzzFuncs, List.get?, Option.some.injEq, Prod.mk.injEq] at hget
    obtain ⟨-, rfl⟩ := hget
    exact selector_ne fuel current _ _ s v (hl1 _) hres
  · simp only [fuzzFuncs, List.get?, Option.some.injEq, Prod.mk.injEq] at hget
    obtain ⟨-, rfl⟩ := hget
    exact selector_ne fuel current _ _ s v (hl1 _) hres
  · simp only [fuzzFuncs, List.get?, Option.some.injEq, Prod.mk.injEq] at hget
    obtain ⟨-, rfl⟩ := hget
    exact selector_ne fuel current _ _ s v (hl1 _) hres
  · simp only [fuzzFuncs, List.get?, Option.some.injEq, Prod.mk.injEq] at hget
    obtain ⟨-, rfl⟩ := hget
    exact selector_ne fuel current _ _ s v (hl1 _) hres
  · simp only [fuzzFuncs, List.get?, Option.some.injEq, Prod.mk.injEq] at hget
    obtain ⟨-, rfl⟩ := hget
    exact selector_ne fuel current _ _ s v (hl1 _) hres
  · simp only [fuzzFuncs, List.get?, Option.some.injEq, Prod.mk.injEq] at hget
    obtain ⟨-, rfl⟩ := hget
    exact selector_ne fuel current _ _ s v (hl2 _ _) hres
  · simp only [fuzzFuncs, List.get?, Option.some.injEq, Prod.mk.injEq] at hget
    obtain ⟨-, rfl⟩ := hget
    exact selector_ne fuel current _ _ s v (hl1 _) hres
  · simp only [fuzzFuncs, List.get?, Option.some.injEq, Prod.mk.injEq] at hget
    obtain ⟨-, rfl⟩ := hget
    exact selector_ne fuel current _ _ s v (hl1 _) hres
  · simp only [fuzzFuncs, List.get?, Option.some.injEq, Prod.mk.injEq] at hget
    obtain ⟨-, rfl⟩ := hget
    exact selector_ne fuel current _ _ s v (hl1 _) hres
  · simp only [fuzzFuncs, List.get?, Option.some.injEq, Prod.mk.injEq] at hget
    obtain ⟨-, rfl⟩ := hget
    exact selector_ne fuel current _ _ s v hlh hres
  · simp [fuzzFuncs, List.get?] at hget

theorem c2_witness :
    version 4 2 (fun n => if n = 2 then 1 else 0) = some 3 ∧ (3 : Nat) ≠ 2 :=
  ⟨by decide, c2_selector_fuzz_ne_current 0 .version version 4 2
    (fun n => if n = 2 then 1 else 0) 3 (by rfl) (by decide)⟩

/-- C9 counterexample: the claim says the invalid intervals of `cluster_bits`
are `{0-8}` and `{21-UINT32_MAX}` and that every candidate drawn from the
invalid constraint lies outside `9..20`; in the code the invalid intervals
are `{0-9}` and `{20-UINT32_MAX}`, and the draw `r = 9` from them yields the
value 9, which lies inside the valid range `9..20`. -/
theorem c9_counterexample :
    random_from_intervals [(0, 9), (20, UINT32)] 9 = 9 ∧
    (9 ≤ 9 ∧ 9 ≤ 20) ∧
    cluster_bits_constraints ≠
      [Constraint.ivs [(9, 20)], Constraint.ivs [(0, 8), (21, UINT32)]] := by
  refine ⟨by decide, ⟨le_refl 9, by norm_num⟩, ?_⟩
  decide

/-- C9 (amended): the constraint table of `cluster_bits` consists of the
valid interval `{9-20}` and the invalid intervals `{0-9}` and
`{20-UINT32_MAX}`; every candidate drawn from the invalid constraint lies in
`{0-9} ∪ {20-UINT32_MAX}` (so it can fall inside the valid range, but only at
9 or 20). -/
theorem c9_cluster_bits_invalid_constraint (r : Nat) :
    cluster_bits_constraints =
      [Constraint.ivs [(9, 20)], Constraint.ivs [(0, 9), (20, UINT32)]] ∧
    (random_from_intervals [(0, 9), (20, UINT32)] r ≤ 9 ∨
      (20 ≤ random_from_intervals [(0, 9), (20, UINT32)] r ∧
        random_from_intervals [(0, 9), (20, UINT32)] r ≤ UINT32)) := by
  refine ⟨rfl, ?_⟩
  have key : random_from_intervals [(0, 9), (20, UINT32)] r =
      r % 4294967286 + (if 9 < r % 4294967286 then 10 else 0) := by
    simp only [random_from_intervals, intervalsTotal, rfiAdjust, randint,
      UINT32, List.foldl, List.zip, List.zipWith, List.tail, List.headD]
    norm_num
  have hU : UINT32 = 4294967295 := rfl
  have hr0 : r % 4294967286 < 4294967286 := Nat.mod_lt _ (by norm_num)
  rw [key, hU]
  split_ifs <;> omega

/-- C8: in a built (non-fuzzed) header with no backing file configured,
version 2 forces `header_length = 72`, all three feature bitmasks zero and
`backing_file_offset = 0`; version 3 forces `header_length = 104` with
`incompatible_features` drawn from 2 random bits (< 4) and
`compatible_features` from 1 random bit (< 2). -/
theorem c8_create_header_version_branches
    (cluster_bits0 image_size cluster_size : Nat) (s : RS) :
    (getFieldValue (create_header cluster_bits0 image_size cluster_size none s)
        .version = .i 2 →
      getFieldValue (create_header cluster_bits0 image_size cluster_size none s)
        .header_length = .i 72 ∧
      getFieldValue (create_header cluster_bits0 image_size cluster_size none s)
        .incompatible_features = .i 0 ∧
      getFieldValue (create_header cluster_bits0 image_size cluster_size none s)
        .compatible_features = .i 0 ∧
      getFieldValue (create_header cluster_bits0 image_size cluster_size none s)
        .autoclear_features = .i 0 ∧
      getFieldValue (create_header cluster_bits0 image_size cluster_size none s)
        .backing_file_offset = .i 0) ∧
    (getFieldValue (create_header cluster_bits0 image_size cluster_size none s)
        .version = .i 3 →
      getFieldValue (create_header cluster_bits0 image_size cluster_size none s)
        .header_length = .i 104 ∧
      ∃ a b, a < 4 ∧ b < 2 ∧
        getFieldValue (create_header cluster_bits0 image_size cluster_size none s)
          .incompatible_features = .i a ∧
        getFieldValue (create_header cluster_bits0 image_size cluster_size none s)
          .compatible_features = .i b) := by
  rcases Nat.mod_two_eq_zero_or_one (s 0) with h0 | h0
  · constructor
    · intro _
      refine ⟨?_, ?_, ?_, ?_, ?_⟩ <;>
        simp [create_header, headerMeta, setFieldValue, getFieldValue,
          randint, h0]
    · intro hv
      simp [create_header, headerMeta, setFieldValue, getFieldValue,
        randint, h0] at hv
  · constructor
    · intro hv
      simp [create_header, headerMeta, setFieldValue, getFieldValue,
        randint, h0] at hv
    · intro _
      refine ⟨?_, s 1 % 4, s 2 % 2, Nat.mod_lt _ (by norm_num),
        Nat.mod_lt _ (by norm_num), ?_, ?_⟩ <;>
        simp [create_header, headerMeta, setFieldValue, getFieldValue,
          randint, h0]

theorem c8_witness :
    getFieldValue (create_header 12 20480 4096 none (fun _ => 0))
      .header_length = .i 72 ∧
    getFieldValue (create_header 12 20480 4096 none (fun _ => 0))
      .incompatible_features = .i 0 ∧
    getFieldValue (create_header 12 20480 4096 none (fun _ => 0))
      .compatible_features = .i 0 ∧
    getFieldValue (create_header 12 20480 4096 none (fun _ => 0))
      .autoclear_features = .i 0 ∧
    getFieldValue (create_header 12 20480 4096 none (fun _ => 0))
      .backing_file_offset = .i 0 :=
  (c8_create_header_version_branches 12 20480 4096 (fun _ => 0)).1 (by decide)

/-- C10: a build whose drawn version is 2 (declared `header_length = 72`)
still contains the version-3-only header fields `incompatible_features`,
`compatible_features`, `autoclear_features` at offsets 72–95,
`refcount_order` at 96 and `header_length` at 100, and `write` serializes
their bytes; the declared `header_length` value never limits which header
fields are built or written. -/
theorem c10_version2_header_keeps_v3_fields
    (cluster_bits0 image_size cluster_size : Nat) (s : RS)
    (h2 : s 0 % 2 = 0) :
    getFieldValue (create_header cluster_bits0 image_size cluster_size none s)
      .header_length = .i 72 ∧
    (⟨.beInt 8, 72, .i 0, .incompatible_features⟩ : Field) ∈
      create_header cluster_bits0 image_size cluster_size none s ∧
    (⟨.beInt 8, 80, .i 0, .compatible_features⟩ : Field) ∈
      create_header cluster_bits0 image_size cluster_size none s ∧
    (⟨.beInt 8, 88, .i 0, .autoclear_features⟩ : Field) ∈
      create_header cluster_bits0 image_size cluster_size none s ∧
    (⟨.beInt 4, 96, .i 4, .refcount_order⟩ : Field) ∈
      create_header cluster_bits0 image_size cluster_size none s ∧
    (⟨.beInt 4, 100, .i 72, .header_length⟩ : Field) ∈
      create_header cluster_bits0 image_size cluster_size none s ∧
    (72, [0, 0, 0, 0, 0, 0, 0, 0]) ∈
      writeImage (create_header cluster_bits0 image_size cluster_size none s) ∧
    (80, [0, 0, 0, 0, 0, 0, 0, 0]) ∈
      writeImage (create_header cluster_bits0 image_size cluster_size none s) ∧
    (88, [0, 0, 0, 0, 0, 0, 0, 0]) ∈
      writeImage (create_header cluster_bits0 image_size cluster_size none s) ∧
    (96, [0, 0, 0, 4]) ∈
      writeImage (create_header cluster_bits0 image_size cluster_size none s) ∧
    (100, [0, 0, 0, 72]) ∈
      writeImage (create_header cluster_bits0 image_size cluster_size none s) := by
  refine ⟨?_, ?_, ?_, ?_, ?_, ?_, ?_, ?_, ?_, ?_, ?_⟩ <;>
    simp [create_header, headerMeta, setFieldValue, getFieldValue, randint,
      h2, writeImage, packBytes, beBytes]

theorem c10_witness :
    getFieldValue (create_header 12 20480 4096 none (fun _ => 0))
      .header_length = .i 72 ∧
    (⟨.beInt 8, 72, .i 0, .incompatible_features⟩ : Field) ∈
      create_header 12 20480 4096 none (fun _ => 0) ∧
    (⟨.beInt 8, 80, .i 0, .compatible_features⟩ : Field) ∈
      create_header 12 20480 4096 none (fun _ => 0) ∧
    (⟨.beInt 8, 88, .i 0, .autoclear_features⟩ : Field) ∈
      create_header 12 20480 4096 none (fun _ => 0) ∧
    (⟨.beInt 4, 96, .i 4, .refcount_order⟩ : Field) ∈
      create_header 12 20480 4096 none (fun _ => 0) ∧
    (⟨.beInt 4, 100, .i 72, .header_length⟩ : Field) ∈
      create_header 12 20480 4096 none (fun _ => 0) ∧
    (72, [0, 0, 0, 0, 0, 0, 0, 0]) ∈
      writeImage (create_header 12 20480 4096 none (fun _ => 0)) ∧
    (80, [0, 0, 0, 0, 0, 0, 0, 0]) ∈
      writeImage (create_header 12 20480 4096 none (fun _ => 0)) ∧
    (88, [0, 0, 0, 0, 0, 0, 0, 0]) ∈
      writeImage (create_header 12 20480 4096 none (fun _ => 0)) ∧
    (96, [0, 0, 0, 4]) ∈
      writeImage (create_header 12 20480 4096 none (fun _ => 0)) ∧
    (100, [0, 0, 0, 72]) ∈
      writeImage (create_header 12 20480 4096 none (fun _ => 0)) :=
  c10_version2_header_keeps_v3_fields 12 20480 4096 (fun _ => 0) (by decide)

/-- C4 counterexample: the claim says a field whose name has no registered
fuzz function is skipped without error in every fuzz mode; but in the
whole-image (and whole-substructure) loop `getattr(fuzz, field.name)` is
called with no exception handler, so a coin-selected `ext_magic` field (the
end-of-extensions marker always contains one) raises `AttributeError`. -/
theorem c4_counterexample :
    fuzzAllGo 3 [⟨.beInt 4, 104, .i 0, .ext_magic⟩] 0 (fun _ => 0) =
      .error (.attr .ext_magic) := by rfl

/-- C4 (amended): only the exact-field selection mode catches
`AttributeError` and skips a field with no registered fuzz function, leaving
it unchanged; in the whole-image and whole-substructure modes an unregistered
field name raises `AttributeError` as soon as the coin selects the field. -/
theorem c4_unknown_field_skip_only_exact_mode :
    (∀ (fuel : Nat) (fname : FName) (sub : List Field) (i : Nat) (s : RS),
      getattrFuzz fname = none → fuzzExactGo fuel fname sub i s = .ok sub) ∧
    (∀ (fuel : Nat) (f : Field) (rest : List Field) (i : Nat) (s : RS),
      getattrFuzz f.name = none → s (Nat.pair i 0) % 2 = 0 →
      fuzzAllGo fuel (f :: rest) i s = .error (.attr f.name)) := by
  constructor
  · intro fuel fname sub
    induction sub with
    | nil => intro i s _; simp [fuzzExactGo]
    | cons f rest ih =>
      intro i s h
      simp only [fuzzExactGo]
      by_cases hf : f.name = fname
      · rw [if_pos hf, hf, h]
        simp [ih (i + 1) s h, Except.map]
      · rw [if_neg hf]
        simp [ih (i + 1) s h, Except.map]
  · intro fuel f rest i s h hcoin
    simp only [fuzzAllGo]
    rw [if_pos hcoin, h]

theorem c4_witness :
    fuzzExactGo 3 .l2_entry [⟨.beInt 8, 1024, .i 0, .l2_entry⟩] 0
      (fun _ => 0) = .ok [⟨.beInt 8, 1024, .i 0, .l2_entry⟩] :=
  c4_unknown_field_skip_only_exact_mode.1 3 .l2_entry
    [⟨.beInt 8, 1024, .i 0, .l2_entry⟩] 0 (fun _ => 0) rfl

theorem buildFNTEntries_spec :
    ∀ (count fuel : Nat) (usedIds : List (Nat × Nat)) (inner_offset : Nat)
      (s : RS) (idx : Nat) (entries : List Field),
      buildFNTEntries count fuel usedIds inner_offset s idx = some entries →
      entries.length = 3 * count ∧
      entries.countP (fun f => f.name = FName.feature_type) = count ∧
      ∀ f ∈ entries, f.name = FName.feature_name → f.value = .s featNameBytes
  | 0, _, _, _, _, _, entries => by
    intro h
    simp only [buildFNTEntries, Option.some.injEq] at h
    simp [← h]
  | count + 1, fuel, usedIds, inner_offset, s, idx, entries => by
    intro h
    simp only [buildFNTEntries] at h
    cases hg : genFreshPair fuel usedIds (RS.sub s idx) with
    | none => simp [hg] at h
    | some p =>
      simp only [hg] at h
      cases hb : buildFNTEntries count fuel (usedIds ++ [p])
          (inner_offset + 48) s (idx + 1) with
      | none => simp [hb] at h
      | some rest =>
        simp only [hb, Option.some.injEq] at h
        obtain ⟨hlen, hcnt, hname⟩ := buildFNTEntries_spec count fuel
          (usedIds ++ [p]) (inner_offset + 48) s (idx + 1) rest hb
        subst h
        refine ⟨by simp [hlen]; omega, ?_, ?_⟩
        · simp [List.countP_cons, hcnt]
        · intro f hf hfn
          simp only [List.mem_cons] at hf
          rcases hf with rfl | rfl | rfl | hf
          · simp at hfn
          · simp at hfn
          · rfl
          · exact hname f hf hfn

theorem genFreshPair_spec :
    ∀ (fuel : Nat) (usedIds : List (Nat × Nat)) (s : RS) (p : Nat × Nat),
      genFreshPair fuel usedIds s = some p →
      p.1 < 3 ∧ p.2 < 64 ∧ p ∉ usedIds
  | 0, _, _, _ => by intro h; simp [genFreshPair] at h
  | fuel + 1, usedIds, s, p => by
    intro h
    simp only [genFreshPair] at h
    by_cases hm : ((s 0 % 3, s 1 % 64) : Nat × Nat) ∈ usedIds
    · rw [if_pos hm] at h
      exact genFreshPair_spec fuel usedIds (RS.drop s 2) p h
    · rw [if_neg hm] at h
      injection h with h
      subst h
      exact ⟨Nat.mod_lt _ (by norm_num), Nat.mod_lt _ (by norm_num), hm⟩

theorem buildFNTEntries_pairs :
    ∀ (count fuel : Nat) (usedIds : List (Nat × Nat)) (inner_offset : Nat)
      (s : RS) (idx : Nat) (entries : List Field),
      buildFNTEntries count fuel usedIds inner_offset s idx = some entries →
      ∃ ps : List (Nat × Nat), entries = fntTriplets ps inner_offset ∧
        ps.length = count ∧ ps.Nodup ∧
        ∀ p ∈ ps, p.1 < 3 ∧ p.2 < 64 ∧ p ∉ usedIds
  | 0, _, _, _, _, _, entries => by
    intro h
    simp only [buildFNTEntries, Option.some.injEq] at h
    exact ⟨[], by simp [← h, fntTriplets], rfl, List.nodup_nil, by simp⟩
  | count + 1, fuel, usedIds, inner_offset, s, idx, entries => by
    intro h
    simp only [buildFNTEntries] at h
    cases hg : genFreshPair fuel usedIds (RS.sub s idx) with
    | none => simp [hg] at h
    | some p =>
      simp only [hg] at h
      cases hb : buildFNTEntries count fuel (usedIds ++ [p])
          (inner_offset + 48) s (idx + 1) with
      | none => simp [hb] at h
      | some rest =>
        simp only [hb, Option.some.injEq] at h
        obtain ⟨hp1, hp2, hpmem⟩ := genFreshPair_spec fuel usedIds _ p hg
        obtain ⟨ps, hrest, hlen, hnd, hall⟩ := buildFNTEntries_pairs count
          fuel (usedIds ++ [p]) (inner_offset + 48) s (idx + 1) rest hb
        refine ⟨p :: ps, ?_, by simp [hlen], ?_, ?_⟩
        · rw [← h, hrest]
          rfl
        · refine List.nodup_cons.mpr ⟨?_, hnd⟩
          intro hmem
          have hnotin := (hall p hmem).2.2
          simp at hnotin
        · intro q hq
          rcases List.mem_cons.mp hq with rfl | hq
          · exact ⟨hp1, hp2, hpmem⟩
          · have hq2 := hall q hq
            exact ⟨hq2.1, hq2.2.1,
              fun hmm => hq2.2.2 (List.mem_append_left _ hmm)⟩

/-- C1 counterexample: the claim says the feature-name-table extension is
generated only when a feature bit is set in the header, with one triplet per
set bit from a fixed name mapping and length `48 × set-bit count`.  Concrete
run: a version-3 header draws both feature masks zero, yet
`create_feature_name_table` (called at offset 104, cluster size 4096, no
backing file) still produces a non-empty extension of 10 free-space-derived
entries whose length field is 480 ≠ 48 × 0, and whose names are the fixed
string `'some cool feature'`, not the claimed per-bit mapping. -/
theorem c1_counterexample :
    getFieldValue (create_header 12 20480 4096 none
      (fun n => if n = 0 then 1 else 0)) .version = .i 3 ∧
    getFieldValue (create_header 12 20480 4096 none
      (fun n => if n = 0 then 1 else 0)) .incompatible_features = .i 0 ∧
    getFieldValue (create_header 12 20480 4096 none
      (fun n => if n = 0 then 1 else 0)) .compatible_features = .i 0 ∧
    (create_feature_name_table 0 4096 104 20 (fun n => n)).isSome ∧
    ((create_feature_name_table 0 4096 104 20 (fun n => n)).getD
      ([], 0)).1 ≠ [] ∧
    getFieldValue ((create_feature_name_table 0 4096 104 20
      (fun n => n)).getD ([], 0)).1 .ext_length = .i 480 := by
  refine ⟨by decide, by decide, by decide, by decide, by decide, by decide⟩

/-- C1 (amended): `create_feature_name_table` is driven by free space alone,
not by the header's feature bits.  With
`num = min(10, (free_space - 8) floordiv 48)` (where
`free_space = (backing_file_offset or cluster_size - 1) - 8 - offset`): when
`num = 0` no extension is produced; otherwise the extension starts with magic
`0x6803f857`, contains exactly `toNat num` (type, bit-number, name) triplets
whose `(type, bit)` pairs are pairwise distinct with `type < 3` and
`bit < 64` and whose name is always the 17-byte string
`'some cool feature'`, its length field is `48 × toNat num`, and the
following offset is `offset + 8 + 48 × toNat num` (in particular, for
`num < 0` an empty extension with length field 0 is emitted). -/
theorem c1_fnt_driven_by_free_space (bfo cluster_size offset fuel : Nat)
    (s : RS) (fields : List Field) (off : Nat)
    (hres : create_feature_name_table bfo cluster_size offset fuel s =
      some (fields, off)) :
    (fntNum bfo cluster_size offset = 0 → fields = [] ∧ off = offset) ∧
    (fntNum bfo cluster_size offset ≠ 0 →
      fields.countP (fun f => f.name = FName.feature_type) =
        (fntNum bfo cluster_size offset).toNat ∧
      getFieldValue fields .ext_length =
        .i (48 * (fntNum bfo cluster_size offset).toNat) ∧
      off = offset + 8 + 48 * (fntNum bfo cluster_size offset).toNat ∧
      fields.head? = some ⟨.beInt 4, offset, .i 0x6803f857, .ext_magic⟩ ∧
      (∀ f ∈ fields, f.name = FName.feature_name →
        f.value = .s featNameBytes) ∧
      ∃ ps : List (Nat × Nat),
        fields = ⟨.beInt 4, offset, .i 0x6803f857, .ext_magic⟩ ::
          ⟨.beInt 4, offset + 4,
            .i (48 * (fntNum bfo cluster_size offset).toNat), .ext_length⟩ ::
          fntTriplets ps (offset + 8) ∧
        ps.length = (fntNum bfo cluster_size offset).toNat ∧
        ps.Nodup ∧ ∀ p ∈ ps, p.1 < 3 ∧ p.2 < 64) := by
  unfold create_feature_name_table at hres
  by_cases hn : fntNum bfo cluster_size offset = 0
  · rw [if_neg (by simpa using hn)] at hres
    injection hres with hres
    refine ⟨fun _ => ?_, fun habs => absurd hn habs⟩
    exact ⟨congrArg Prod.fst hres.symm, congrArg Prod.snd hres.symm⟩
  · rw [if_pos hn] at hres
    refine ⟨fun habs => absurd habs hn, fun _ => ?_⟩
    cases hb : buildFNTEntries (fntNum bfo cluster_size offset).toNat fuel []
        (offset + 8) s 0 with
    | none => simp [hb] at hres
    | some entries =>
      simp only [hb, Option.some.injEq, Prod.mk.injEq] at hres
      obtain ⟨hfields, hoff⟩ := hres
      obtain ⟨hlen, hcnt, hname⟩ := buildFNTEntries_spec _ fuel [] (offset + 8)
        s 0 entries hb
      subst hfields
      refine ⟨?_, ?_, hoff.symm, rfl, ?_, ?_⟩
      · simp [List.countP_cons, hcnt]
      · simp only [getFieldValue, List.filter]
        norm_num
        rw [hlen, Nat.mul_div_cancel_left _ (by norm_num), Nat.mul_comm]
        simp [getFieldValue]
      · intro f hf hfn
        simp only [List.mem_cons] at hf
        rcases hf with rfl | rfl | hf
        · simp at hfn
        · simp at hfn
        · exact hname f hf hfn
      · obtain ⟨ps, hent, hpslen, hpsnd, hpsall⟩ :=
          buildFNTEntries_pairs _ fuel [] (offset + 8) s 0 entries hb
        refine ⟨ps, ?_, hpslen, hpsnd,
          fun p hp => ⟨(hpsall p hp).1, (hpsall p hp).2.1⟩⟩
        have hv : entries.length / 3 * 48 =
            48 * (fntNum bfo cluster_size offset).toNat := by
          rw [hlen]
          omega
        rw [hv, hent]

theorem splitLoop_flatten (low_lim l2_size : Nat) :
    ∀ (fuel : Nat) (temp : List Nat) (s : RS)
      (content : List (List (Nat × Nat))),
      splitLoop low_lim l2_size fuel temp s = some content →
      (content.map (fun g => g.map Prod.snd)).flatten = temp := by
  intro fuel
  induction fuel with
  | zero =>
    intro temp s content h
    simp only [splitLoop] at h
    by_cases htemp : temp = []
    · rw [if_pos htemp] at h
      injection h with h
      simp [← h, htemp]
    · rw [if_neg htemp] at h
      cases h
  | succ fuel ih =>
    intro temp s content h
    simp only [splitLoop] at h
    by_cases htemp : temp = []
    · rw [if_pos htemp] at h
      injection h with h
      simp [← h, htemp]
    · rw [if_neg htemp] at h
      cases hsm : sampleList (min (randint low_lim l2_size (s 0))
          temp.length) (List.range l2_size) (RS.sub s 1) with
      | none => rw [hsm] at h; cases h
      | some ids =>
        rw [hsm, Option.map_eq_some'] at h
        obtain ⟨rest, hrest, hcontent⟩ := h
        have ihr := ih _ _ _ hrest
        have hids := sampleList_length _ _ _ _ hsm
        have htake : (temp.take (min (randint low_lim l2_size (s 0))
            temp.length)).length ≤ ids.length := by
          rw [List.length_take, hids]
          exact min_le_left _ _
        rw [← hcontent]
        simp only [List.map_cons, List.flatten_cons]
        rw [List.map_snd_zip _ _ htake, ihr, List.take_append_drop]

theorem l2EntryBit_le_one (version0 : Nat) (s : RS) (i j : Nat) :
    l2EntryBit version0 s i j ≤ 1 := by
  unfold l2EntryBit
  split
  · omega
  · omega

theorem l2DataIdx_entry (cluster_size d b : Nat) (hcs : 2 ≤ cluster_size)
    (hb : b ≤ 1) :
    (2 ^ 63 + d * cluster_size + b - 2 ^ 63) / cluster_size = d := by
  have h1 : 2 ^ 63 + d * cluster_size + b - 2 ^ 63 =
      cluster_size * d + b := by
    rw [Nat.mul_comm]
    omega
  rw [h1, Nat.mul_add_div (by omega), Nat.div_eq_of_lt (by omega)]
  omega

theorem l2TableFields_map (cluster_size version0 : Nat) (s : RS) (cid : Nat)
    (hcs : 2 ≤ cluster_size) :
    ∀ (grp : List (Nat × Nat)) (i j : Nat),
      (l2TableFields cluster_size version0 s cid grp i j).map
        (l2DataIdx cluster_size) = grp.map Prod.snd
  | [], _, _ => rfl
  | ed :: grest, i, j => by
    simp only [l2TableFields, List.map_cons]
    rw [l2TableFields_map cluster_size version0 s cid hcs grest i (j + 1)]
    congr 1
    simp only [l2DataIdx]
    exact l2DataIdx_entry cluster_size ed.2 _ hcs
      (l2EntryBit_le_one version0 s i j)

theorem l2TableFields_form (cluster_size version0 : Nat) (s : RS)
    (cid : Nat) :
    ∀ (grp : List (Nat × Nat)) (i j : Nat) (f : Field),
      f ∈ l2TableFields cluster_size version0 s cid grp i j →
      ∃ d b, d ∈ grp.map Prod.snd ∧ b ≤ 1 ∧ (version0 = 2 → b = 0) ∧
        f.value = .i (2 ^ 63 + d * cluster_size + b)
  | [], _, _, f => by intro h; simp [l2TableFields] at h
  | ed :: grest, i, j, f => by
    intro h
    simp only [l2TableFields, List.mem_cons] at h
    rcases h with rfl | h
    · refine ⟨ed.2, l2EntryBit version0 s i j, by simp,
        l2EntryBit_le_one version0 s i j, ?_, rfl⟩
      intro h2
      simp [l2EntryBit, h2]
    · obtain ⟨d, b, hd, hb, hv, hval⟩ :=
        l2TableFields_form cluster_size version0 s cid grest i (j + 1) f h
      refine ⟨d, b, ?_, hb, hv, hval⟩
      simp only [List.map_cons, List.mem_cons]
      exact Or.inr hd

theorem l2Fields_map (cluster_size version0 : Nat) (s : RS)
    (hcs : 2 ≤ cluster_size) :
    ∀ (pairs : List (Nat × List (Nat × Nat))) (i : Nat),
      (l2Fields cluster_size version0 s pairs i).map
        (l2DataIdx cluster_size) =
        (pairs.map (fun p => p.2.map Prod.snd)).flatten
  | [], _ => rfl
  | cg :: rest, i => by
    simp only [l2Fields, List.map_append, List.map_cons, List.flatten_cons]
    rw [l2TableFields_map cluster_size version0 s cg.1 hcs cg.2 i 0,
      l2Fields_map cluster_size version0 s hcs rest (i + 1)]

theorem l2Fields_form (cluster_size version0 : Nat) (s : RS) :
    ∀ (pairs : List (Nat × List (Nat × Nat))) (i : Nat) (f : Field),
      f ∈ l2Fields cluster_size version0 s pairs i →
      ∃ grp d b, grp ∈ pairs.map Prod.snd ∧ d ∈ grp.map Prod.snd ∧ b ≤ 1 ∧
        (version0 = 2 → b = 0) ∧ f.value = .i (2 ^ 63 + d * cluster_size + b)
  | [], _, f => by intro h; simp [l2Fields] at h
  | cg :: rest, i, f => by
    intro h
    simp only [l2Fields, List.mem_append] at h
    rcases h with h | h
    · obtain ⟨d, b, hd, hb, hv, hval⟩ :=
        l2TableFields_form cluster_size version0 s cg.1 cg.2 i 0 f h
      exact ⟨cg.2, d, b, by simp, hd, hb, hv, hval⟩
    · obtain ⟨grp, d, b, hg, hdm, hb, hv, hval⟩ :=
        l2Fields_form cluster_size version0 s rest (i + 1) f h
      refine ⟨grp, d, b, ?_, hdm, hb, hv, hval⟩
      simp only [List.map_cons, List.mem_cons]
      exact Or.inr hg

/-- C3: in every build, every L2 entry value equals
`(1 << 63) + data_cluster_index * cluster_size + b` with `b ≤ 1` and `b = 0`
whenever the header version is 2, the encoded data-cluster index is a member
of the chosen data-cluster set, and every index of that set appears in
exactly one L2 entry across all L2 tables (no data cluster double-mapped or
orphaned). -/
theorem c3_l2_entries_partition_data (data_clusters : Finset Nat)
    (cluster_size image_size version0 : Nat) (s : RS) (fields : List Field)
    (hcs : 2 ≤ cluster_size)
    (hres : create_l2_tables data_clusters cluster_size image_size version0 s
      = some fields) :
    (∀ f ∈ fields, ∃ d b, d ∈ data_clusters ∧ b ≤ 1 ∧
      (version0 = 2 → b = 0) ∧
      f.value = .i (2 ^ 63 + d * cluster_size + b)) ∧
    (∀ d ∈ data_clusters,
      (fields.map (l2DataIdx cluster_size)).count d = 1) := by
  unfold create_l2_tables at hres
  by_cases hd : data_clusters.card = 0
  · rw [if_pos hd] at hres
    injection hres with hres
    constructor
    · intro f hf
      rw [← hres] at hf
      simp at hf
    · intro d hdm
      rw [Finset.card_eq_zero.mp hd] at hdm
      simp at hdm
  · rw [if_neg hd] at hres
    cases hsp : splitLoop
        (lowLim (l2Temp data_clusters (RS.sub s 0)).length
          (maxL2Size cluster_size image_size))
        (cluster_size / 8)
        (l2Temp data_clusters (RS.sub s 0)).length
        (l2Temp data_clusters (RS.sub s 0)) (RS.sub s 1) with
    | none => simp [hsp] at hres
    | some content =>
      simp only [hsp] at hres
      obtain ⟨r, hr, hcard, hdisj⟩ := get_available_clusters_spec
        (data_clusters ∪ {0}) content.length (RS.sub s 2) ⟨0, by simp⟩
      simp only [hr] at hres
      injection hres with hres
      have hperm : (l2Temp data_clusters (RS.sub s 0)).Perm
          (sortedList data_clusters) := shuffleList_perm _ _ _
      have hjoin := splitLoop_flatten _ _ _ _ _ _ hsp
      constructor
      · intro f hf
        rw [← hres] at hf
        obtain ⟨grp, d, b, hg, hdm, hb, hv, hval⟩ :=
          l2Fields_form cluster_size version0 (RS.sub s 3) _ 0 f hf
        refine ⟨d, b, ?_, hb, hv, hval⟩
        obtain ⟨p, hp, hpg⟩ := List.mem_map.mp hg
        have hgc : grp ∈ content := hpg ▸ (List.of_mem_zip hp).2
        have hdtemp : d ∈ l2Temp data_clusters (RS.sub s 0) := by
          rw [← hjoin]
          exact List.mem_flatten.mpr
            ⟨grp.map Prod.snd, List.mem_map_of_mem _ hgc, hdm⟩
        exact (mem_sortedList _ _).mp (hperm.subset hdtemp)
      · intro d hdm
        rw [← hres, l2Fields_map cluster_size version0 (RS.sub s 3) hcs]
        have h1 : ((sortedList r).zip content).map Prod.snd = content :=
          List.map_snd_zip _ _
            (le_of_eq (by rw [sortedList_length, hcard]))
        have hfun : (fun p : Nat × List (Nat × Nat) =>
            List.map Prod.snd p.2) =
            (fun g : List (Nat × Nat) => List.map Prod.snd g) ∘ Prod.snd :=
          rfl
        have hzipmap : ((sortedList r).zip content).map
            (fun p => p.2.map Prod.snd) =
            content.map (fun g => g.map Prod.snd) := by
          rw [hfun, ← List.map_map, h1]
        rw [hzipmap, hjoin, List.Perm.count_eq hperm]
        exact List.count_eq_one_of_mem (sortedList_nodup _)
          ((mem_sortedList _ _).mpr hdm)

theorem c3_witness :
    (∀ f ∈ [(⟨.beInt 8, 1024, .i (2 ^ 63 + 512), .l2_entry⟩ : Field)],
      ∃ d b, d ∈ ({1} : Finset Nat) ∧ b ≤ 1 ∧ ((2 : Nat) = 2 → b = 0) ∧
        f.value = .i (2 ^ 63 + d * 512 + b)) ∧
    (∀ d ∈ ({1} : Finset Nat),
      (([(⟨.beInt 8, 1024, .i (2 ^ 63 + 512), .l2_entry⟩ : Field)]).map
        (l2DataIdx 512)).count d = 1) :=
  c3_l2_entries_partition_data {1} 512 512 2 (fun _ => 0)
    [⟨.beInt 8, 1024, .i (2 ^ 63 + 512), .l2_entry⟩]
    (by norm_num) (by decide)

theorem c1_witness :
    ((create_feature_name_table 0 4096 104 20 (fun n => n)).getD ([], 0)).2 =
      104 + 8 + 48 * (fntNum 0 4096 104).toNat :=
  ((c1_fnt_driven_by_free_space 0 4096 104 20 (fun n => n)
      ((create_feature_name_table 0 4096 104 20 (fun n => n)).getD ([], 0)).1
      ((create_feature_name_table 0 4096 104 20 (fun n => n)).getD ([], 0)).2
      (by decide)).2 (by decide)).2.2.1

end QcowFuzz
